import Mathlib

/-!
Verification of the document-structuring core of the youtube-to-text
repository.  All string-processing functions are shallowly embedded over
`List Char` (mirroring Python `str` as a sequence of code points); the
`.data` field converts Lean string literals to that representation.
-/

namespace YtT

/-- Python whitespace (`\s` / `str.split()` / `str.strip()`), modelled by the
ASCII whitespace characters plus the ideographic space. -/
def isWs (c : Char) : Bool :=
  c = ' ' || c = '\t' || c = '\n' || c = '\r' || c = '\x0b' || c = '\x0c' || c = '　'

/-- Does `pre` occur at the start of `l`?  (Python `str.startswith`.) -/
def startsWL : List Char → List Char → Bool
  | [], _ => true
  | _ :: _, [] => false
  | a :: as, b :: bs => a = b && startsWL as bs

/-- Does `pat` occur as a contiguous substring of `l`?  (Python `in`.) -/
def subOccL (pat : List Char) : List Char → Bool
  | [] => startsWL pat []
  | c :: cs => startsWL pat (c :: cs) || subOccL pat cs

example : subOccL "目录".data "## 目录\n".data = true := by decide
example : subOccL "首先".data "大家好。".data = false := by decide

/-- Remove trailing whitespace (the right half of Python `str.strip`). -/
def stripRightWs : List Char → List Char
  | [] => []
  | c :: cs =>
    let r := stripRightWs cs
    if r.isEmpty && isWs c then [] else c :: r

/-- Python `str.strip()`: drop leading and trailing whitespace. -/
def pyStrip (l : List Char) : List Char :=
  stripRightWs (l.dropWhile isWs)

/-- Split a character list at every character satisfying `p`, keeping empty
fragments (the behaviour of Python `re.split` with a one-character class). -/
def splitOnPred (p : Char → Bool) : List Char → List (List Char)
  | [] => [[]]
  | c :: cs =>
    if p c then [] :: splitOnPred p cs
    else
      match splitOnPred p cs with
      | [] => [[c]]
      | l :: ls => (c :: l) :: ls

example : splitOnPred (fun c => c = '。') "ab。c。".data = ["ab".data, "c".data, []] := by decide

/-- Python `sep.join(list)`. -/
def intercalateL (sep : List Char) : List (List Char) → List Char
  | [] => []
  | [x] => x
  | x :: xs => x ++ sep ++ intercalateL sep xs

/-- Fuel-indexed scan for `removeSub`; the fuel (initially the list length)
only makes the recursion structural and is never exhausted, since each step
consumes at least one character. -/
def removeSubF (p : Char) (pr : List Char) : Nat → List Char → List Char
  | _, [] => []
  | 0, l => l
  | fuel + 1, c :: cs =>
    if startsWL (p :: pr) (c :: cs) then removeSubF p pr fuel (cs.drop pr.length)
    else c :: removeSubF p pr fuel cs

/-- Python `str.replace(pat, '', ...)` with a nonempty pattern `p :: pr`:
remove every non-overlapping occurrence, scanning left to right without
rescanning removed regions. -/
def removeSub (p : Char) (pr : List Char) (l : List Char) : List Char :=
  removeSubF p pr l.length l

/-- Fuel-indexed scan for `countSub` (same fuel device as `removeSubF`). -/
def countSubF (p : Char) (pr : List Char) : Nat → List Char → Nat
  | _, [] => 0
  | 0, _ => 0
  | fuel + 1, c :: cs =>
    if startsWL (p :: pr) (c :: cs) then countSubF p pr fuel (cs.drop pr.length) + 1
    else countSubF p pr fuel cs

/-- Python `str.count(pat)` for a nonempty pattern: non-overlapping count. -/
def countSub (p : Char) (pr : List Char) (l : List Char) : Nat :=
  countSubF p pr l.length l

/-- Python `str.replace(c, rep, 1)` with a one-character pattern. -/
def replaceFirstChar (c : Char) (rep : List Char) : List Char → List Char
  | [] => []
  | d :: ds => if d = c then rep ++ ds else d :: replaceFirstChar c rep ds

/-! ## DocumentFormatter (src/src/formatter/document_formatter.py) -/

/-- The scanning loop of `re.sub(r'\s+', ' ', text)`: `inRun` records
whether the previous character was whitespace (so its run's single space has
already been emitted). -/
def collapseWsAux (inRun : Bool) : List Char → List Char
  | [] => []
  | c :: cs =>
    if isWs c then
      if inRun then collapseWsAux true cs else ' ' :: collapseWsAux true cs
    else c :: collapseWsAux false cs

/-- Model of `re.sub(r'\s+', ' ', text)`: collapse every maximal whitespace run
to a single space. -/
def collapseWs (l : List Char) : List Char :=
  collapseWsAux false l

/-- Python `\w` (word character), modelled as ASCII alphanumeric or
underscore; the CJK range of the allow-list is handled separately. -/
def isWordChar (c : Char) : Bool :=
  c.isAlphanum || c = '_'

/-- The CJK unified-ideograph range `一-鿿` of the allow-list. -/
def isCJK (c : Char) : Bool :=
  decide (0x4e00 ≤ c.toNat) && decide (c.toNat ≤ 0x9fff)

/-- The fixed punctuation allow-list of `_clean_text`'s character class:
the listed CJK punctuation plus the ASCII double quote (U+0022) and
apostrophe (U+0027), which the source class contains four times each. -/
def isAllowedPunct (c : Char) : Bool :=
  c = '，' || c = '。' || c = '！' || c = '？' || c = '：' || c = '；' || c = '、' ||
  c = '（' || c = '）' || c = '【' || c = '】' || c = '《' || c = '》' ||
  c = '\x22' || c = '\x27' || c = '…' || c = '—'

/-- A character surviving the removal pass
`re.sub(r'[^\w\s\u4e00-\u9fff ...]', '', text)` of `_clean_text`. -/
def allowedChar (c : Char) : Bool :=
  isWordChar c || isWs c || isCJK c || isAllowedPunct c

/-- Model of `text.replace('，', '，').replace('。', '。')`: the punctuation
"canonicalization" pass of `_clean_text`, which replaces each of the two
characters by itself. -/
def canonPunct (l : List Char) : List Char :=
  (l.map (fun c => if c = '，' then '，' else c)).map (fun c => if c = '。' then '。' else c)

/-- Model of `DocumentFormatter._clean_text`: collapse whitespace, strip disallowed
characters, canonicalize punctuation, trim. -/
def cleanTextL (l : List Char) : List Char :=
  pyStrip (canonPunct ((collapseWs l).filter allowedChar))

/-- Sentence-terminal punctuation `[。！？]` used by `re.split` in
`_split_paragraphs` and `_preprocess_text`. -/
def isSentEnd (c : Char) : Bool :=
  c = '。' || c = '！' || c = '？'

/-- Model of `sentence.endswith(('。', '！', '？'))`. -/
def endsTerm (l : List Char) : Bool :=
  match l.getLast? with
  | some c => isSentEnd c
  | none => false

/-- Append the default terminator when the sentence fragment lacks one. -/
def augSentence (l : List Char) : List Char :=
  if endsTerm l then l else l ++ ['。']

/-- The discourse-transition keyword list of `_should_split_paragraph`
(source order, including the duplicated `最后`). -/
def splitKeywords : List (List Char) :=
  ["接下来".data, "下面".data, "最后".data, "总结".data, "总之".data,
   "第一部分".data, "第二部分".data, "第三部分".data,
   "首先".data, "其次".data, "然后".data, "最后".data]

/-- Model of `DocumentFormatter._should_split_paragraph`: flush when the buffer
exceeds 200 characters or contains a discourse-transition keyword. -/
def shouldSplitParagraph (l : List Char) : Bool :=
  decide (l.length > 200) || splitKeywords.any (fun kw => subOccL kw l)

/-- The accumulation loop of `DocumentFormatter._split_paragraphs`: strip
each sentence fragment, drop empties, append a terminator if missing, grow
the buffer, and flush it (stripped, if nonempty) whenever
`_should_split_paragraph` holds; flush the final remainder. -/
def splitParagraphsAux : List (List Char) → List Char → List (List Char)
  | [], buf => if pyStrip buf = [] then [] else [pyStrip buf]
  | s :: rest, buf =>
    let s' := pyStrip s
    if s' = [] then splitParagraphsAux rest buf
    else
      let buf' := buf ++ augSentence s'
      if shouldSplitParagraph buf' then
        (if pyStrip buf' = [] then [] else [pyStrip buf']) ++ splitParagraphsAux rest []
      else splitParagraphsAux rest buf'

/-- Model of `DocumentFormatter._split_paragraphs`. -/
def splitParagraphsL (text : List Char) : List (List Char) :=
  splitParagraphsAux (splitOnPred isSentEnd text) []

/-- Anchored match of the regex `cls* sep` (a possibly-empty run of class
characters followed by one separator-class character).  For every pattern of
the source the two classes are disjoint, so greedy matching with
backtracking coincides with this direct scan. -/
def matchStar (cls sep : Char → Bool) : List Char → Bool
  | [] => false
  | c :: cs => if cls c then matchStar cls sep cs else sep c

/-- Anchored match of the regex `cls+ sep` (nonempty run, then separator). -/
def matchPlus (cls sep : Char → Bool) : List Char → Bool
  | [] => false
  | c :: cs => cls c && matchStar cls sep cs

/-- The character class `[一二三四五六七八九十]`. -/
def isCnNum (c : Char) : Bool :=
  c = '一' || c = '二' || c = '三' || c = '四' || c = '五' ||
  c = '六' || c = '七' || c = '八' || c = '九' || c = '十'

/-- The character class `[一二三四五六七八九十\d]`, with `\d` modelled as the
ASCII digits. -/
def isCnNumOrDigit (c : Char) : Bool :=
  isCnNum c || c.isDigit

/-- The separator class `[、．.]`. -/
def isOrdSep (c : Char) : Bool :=
  c = '、' || c = '．' || c = '.'

/-- The class `[章节部分]` closing the chapter pattern. -/
def isChapterWord (c : Char) : Bool :=
  c = '章' || c = '节' || c = '部' || c = '分'

/-- The opening-parenthesis class `[（(]`. -/
def isOpenParen (c : Char) : Bool :=
  c = '（' || c = '('

/-- The closing-parenthesis class `[）)]`. -/
def isCloseParen (c : Char) : Bool :=
  c = '）' || c = ')'

/-- Title pattern 1, `^第[一二三四五六七八九十\d]+[章节部分]`. -/
def titleP1 : List Char → Bool
  | '第' :: rest => matchPlus isCnNumOrDigit isChapterWord rest
  | _ => false

/-- Title pattern 2, `^[一二三四五六七八九十\d]+[、．.]`. -/
def titleP2 (l : List Char) : Bool :=
  matchPlus isCnNumOrDigit isOrdSep l

/-- Title pattern 3, `^[（(]\d+[）)]`. -/
def titleP3 : List Char → Bool
  | c :: rest => isOpenParen c && matchPlus (·.isDigit) isCloseParen rest
  | [] => false

/-- Title pattern 4, `^[A-Za-z]\d*[、．.]`. -/
def titleP4 : List Char → Bool
  | c :: rest => (c.isUpper || c.isLower) && matchStar (·.isDigit) isOrdSep rest
  | [] => false

/-- Model of `DocumentFormatter._is_title`: any title pattern matches the stripped
text. -/
def isTitleL (l : List Char) : Bool :=
  let t := pyStrip l
  titleP1 t || titleP2 t || titleP3 t || titleP4 t

/-- List pattern 1, `^\d+[、．.]`. -/
def listP1 (l : List Char) : Bool :=
  matchPlus (·.isDigit) isOrdSep l

/-- List pattern 2, `^[一二三四五六七八九十]+[、．.]`. -/
def listP2 (l : List Char) : Bool :=
  matchPlus isCnNum isOrdSep l

/-- List pattern 3, `^[（(][一二三四五六七八九十\d]+[）)]`. -/
def listP3 : List Char → Bool
  | c :: rest => isOpenParen c && matchPlus isCnNumOrDigit isCloseParen rest
  | [] => false

/-- Model of `DocumentFormatter._is_list`: any list pattern matches the stripped
text. -/
def isListL (l : List Char) : Bool :=
  let t := pyStrip l
  listP1 t || listP2 t || listP3 t

/-- Model of `DocumentFormatter._get_title_level` (matching the unstripped text, as
in the source). -/
def getTitleLevel (l : List Char) : Nat :=
  if titleP1 l then 1 else if titleP2 l then 2 else 3

/-- Model of `DocumentFormatter._get_list_type` (matching the unstripped text, as in
the source). -/
def getListType (l : List Char) : List Char :=
  if listP1 l then "numbered".data else if listP2 l then "chinese".data else "bullet".data

/-- An entry of `structure['titles']`. -/
structure TitleEntry where
  index : Nat
  text : List Char
  level : Nat
  deriving DecidableEq, Repr

/-- An entry of `structure['lists']`. -/
structure ListEntry where
  index : Nat
  text : List Char
  type : List Char
  deriving DecidableEq, Repr

/-- An entry of `structure['paragraphs']`. -/
structure ParaEntry where
  index : Nat
  text : List Char
  deriving DecidableEq, Repr

/-- Model of `DocumentStructure`: the dict built by `_analyze_structure`. -/
structure DocStructure where
  titles : List TitleEntry
  lists : List ListEntry
  paragraphs : List ParaEntry
  deriving DecidableEq, Repr

/-- The enumeration loop of `_analyze_structure`, starting at index `i`:
title test first, then list test, else body. -/
def analyzeAux : Nat → List (List Char) → DocStructure
  | _, [] => ⟨[], [], []⟩
  | i, p :: ps =>
    let rest := analyzeAux (i + 1) ps
    if isTitleL p then ⟨⟨i, p, getTitleLevel p⟩ :: rest.titles, rest.lists, rest.paragraphs⟩
    else if isListL p then ⟨rest.titles, ⟨i, p, getListType p⟩ :: rest.lists, rest.paragraphs⟩
    else ⟨rest.titles, rest.lists, ⟨i, p⟩ :: rest.paragraphs⟩

/-- Model of `DocumentFormatter._analyze_structure`. -/
def analyzeStructure (paragraphs : List (List Char)) : DocStructure :=
  analyzeAux 0 paragraphs

/-- A run of `n` copies of `'#'` (`"#" * n`). -/
def hashRun (n : Nat) : List Char :=
  List.replicate n '#'

/-- The TOC indent `"  " * (level - 1)`. -/
def tocIndent (level : Nat) : List Char :=
  (List.replicate (level - 1) "  ".data).flatten

/-- The content loop of `_generate_formatted_text`: each paragraph is looked
up by index in the structure's title and list sequences; titles render as a
heading of `level + 1` hashes plus a blank line, list items by their kind's
marker, body paragraphs as the text plus a blank line. -/
def contentLines (st : DocStructure) : Nat → List (List Char) → List (List Char)
  | _, [] => []
  | i, p :: ps =>
    (match st.titles.find? (fun t => t.index = i) with
     | some ti => [hashRun (ti.level + 1) ++ " ".data ++ p, []]
     | none =>
       match st.lists.find? (fun l => l.index = i) with
       | some li =>
         if li.type = "numbered".data then ["1. ".data ++ p]
         else if li.type = "chinese".data then ["- ".data ++ p]
         else ["• ".data ++ p]
       | none => [p, []]) ++ contentLines st (i + 1) ps

/-- Model of `DocumentFormatter._generate_formatted_text`: title heading, optional
TOC section, then the content lines, joined with newlines. -/
def generateFormattedText (paragraphs : List (List Char)) (st : DocStructure)
    (title : List Char) : List Char :=
  let headerLines := ["# ".data ++ title, []]
  let tocLines :=
    if st.titles.isEmpty then []
    else ("## 目录".data :: st.titles.map (fun ti => tocIndent ti.level ++ "- ".data ++ ti.text)) ++ [[]]
  intercalateL ['\n'] (headerLines ++ tocLines ++ contentLines st 0 paragraphs)

/-! ## AIOptimizer (src/src/optimizer/ai_optimizer.py) -/

/-- The word-accumulation loop of Python `str.split()` (no argument): build
the current word in `acc` (reversed) and emit it at each whitespace run or
at the end. -/
def pyWordsAux (acc : List Char) : List Char → List (List Char)
  | [] => if acc.isEmpty then [] else [acc.reverse]
  | c :: cs =>
    if isWs c then
      if acc.isEmpty then pyWordsAux [] cs else acc.reverse :: pyWordsAux [] cs
    else pyWordsAux (c :: acc) cs

/-- Python `str.split()` (no argument): the whitespace-delimited words, with
empty fragments dropped. -/
def pyWords (l : List Char) : List (List Char) :=
  pyWordsAux [] l

/-- Model of `' '.join(text.split())`: the whitespace-normalization step of
`_preprocess_text`. -/
def pyJoinWords (l : List Char) : List Char :=
  intercalateL [' '] (pyWords l)

/-- Model of `text.replace('[音乐]', '').replace('[掌声]', '').replace('[笑声]', '')`:
strip the transcription-noise markers. -/
def removeMarkers (l : List Char) : List Char :=
  removeSub '[' "笑声]".data (removeSub '[' "掌声]".data (removeSub '[' "音乐]".data l))

/-- The accumulation loop of `AIOptimizer._preprocess_text`: identical
sentence handling to `_split_paragraphs`, but the buffer is flushed only on
the 200-character length threshold (no keyword test), and the length-flush
appends the stripped buffer unconditionally. -/
def preSegAux : List (List Char) → List Char → List (List Char)
  | [], buf => if pyStrip buf = [] then [] else [pyStrip buf]
  | s :: rest, buf =>
    let s' := pyStrip s
    if s' = [] then preSegAux rest buf
    else
      let buf' := buf ++ augSentence s'
      if decide (buf'.length > 200) then pyStrip buf' :: preSegAux rest []
      else preSegAux rest buf'

/-- Model of `AIOptimizer._preprocess_text`: whitespace normalization, marker
removal, length-only segmentation, blank-line join. -/
def preprocessTextL (text : List Char) : List Char :=
  intercalateL "\n\n".data (preSegAux (splitOnPred isSentEnd (removeMarkers (pyJoinWords text))) [])

/-- The outcome of the single HTTP POST made by `_call_ai_optimization`:
either a response with a status code and (when the JSON shape is as
expected) the extracted `choices[0].message.content`, or a raised transport
exception. -/
inductive AIResp where
  | ok (status : Nat) (content : Option (List Char))
  | exn
  deriving DecidableEq, Repr

/-- Model of `AIOptimizer._call_ai_optimization`: without an API key the input text
is returned unchanged; with a key, the prompt template (with its `text`
placeholder filled) is POSTed and the extracted content is returned only on
a 200 response whose JSON has the expected shape — every other status,
malformed body, or raised exception falls back to the input text. -/
def callAIOptimizationL (apiKey : Option (List Char)) (template text : List Char)
    (resp : AIResp) : List Char :=
  match apiKey with
  | none => text
  | some _ =>
    match resp with
    | .ok status content =>
      if status = 200 then
        match content with
        | some body => body
        | none => text
      else text
    | .exn => text

/-- One attempted match of the regex `^(#{1,3})\s+(.+)$` (with
`re.MULTILINE`) at a line-start suffix `s`: one to three hashes, then `\s+`
— which, unlike `^`/`$`, freely crosses newlines — then `(.+)` (greedy,
stopping at a newline or the end).  Returns the two groups and the suffix
after the match.  When the text ends inside the whitespace run, `\s+`
backtracks minimally, leaving the run's last non-newline character (never
its first character) as the content. -/
def tryHeaderMatch (s : List Char) : Option ((List Char × List Char) × List Char) :=
  let j := (s.takeWhile (fun c => c = '#')).length
  if j = 0 || j > 3 then none
  else
    let rest := s.drop j
    let w := (rest.takeWhile isWs).length
    if w = 0 then none
    else
      let tail := rest.drop w
      match tail with
      | _ :: _ =>
        let g2 := tail.takeWhile (fun d => ¬ d = '\n')
        some ((s.takeWhile (fun c => c = '#'), g2), tail.drop g2.length)
      | [] =>
        match ((rest.drop 1).reverse.dropWhile (fun d => d = '\n')) with
        | b :: _ =>
          some ((s.takeWhile (fun c => c = '#'), [b]),
            ((rest.drop 1).reverse.takeWhile (fun d => d = '\n')).reverse)
        | [] => none

/-- The scan loop of `re.findall`: try the anchored pattern at every
line start (`atStart` tracks whether the previous character was a newline),
resuming after each non-overlapping match.  The fuel (initially the text
length) only makes the recursion structural; a match always consumes at
least one character, so it is never exhausted. -/
def scanHeadersF : Nat → Bool → List Char → List (List Char × List Char)
  | _, _, [] => []
  | 0, _, _ => []
  | fuel + 1, atStart, c :: cs =>
    if atStart then
      match tryHeaderMatch (c :: cs) with
      | some m => m.1 :: scanHeadersF fuel false m.2
      | none => scanHeadersF fuel (c = '\n') cs
    else scanHeadersF fuel (c = '\n') cs

/-- Model of `re.findall(r'^(#{1,3})\s+(.+)$', text, re.MULTILINE)`:
the `(hashes, header-text)` pairs of every match, in scan order. -/
def extractHeaders (text : List Char) : List (List Char × List Char) :=
  scanHeadersF text.length true text

/-- One TOC entry `- [header](#anchor)`, the anchor being the header with
spaces replaced by hyphens. -/
def tocEntry (header : List Char) : List Char :=
  "- [".data ++ header ++ "](#".data ++
    header.map (fun c => if c = ' ' then '-' else c) ++ ")\n".data

/-- The TOC-building loop of `_postprocess_text`: starting from
`"## 目录\n\n"`, append one entry per extracted header whose hash string is
exactly `##`. -/
def tocFold (headers : List (List Char × List Char)) : List Char :=
  headers.foldl (fun acc p => if p.1 = "##".data then acc ++ tocEntry p.2 else acc) "## 目录\n\n".data

/-- Model of `text.startswith('#')`. -/
def startsHash : List Char → Bool
  | [] => false
  | c :: _ => c = '#' 

/-- The title-injection step of `_postprocess_text`: prepend
`"# {title}\n\n"` when the text does not start with `'#'`. -/
def injectTitle (text title : List Char) : List Char :=
  if startsHash text then text else "# ".data ++ title ++ "\n\n".data ++ text

/-- Model of `AIOptimizer._postprocess_text`: inject the title heading, then, when
`'##'` occurs but the literal `目录` does not and at least one header line
matches, splice `"# {title}\n\n{toc}\n#"` over the first `'#'` character. -/
def postprocessTextL (text title : List Char) : List Char :=
  if subOccL "##".data (injectTitle text title) &&
      !subOccL "目录".data (injectTitle text title) then
    if (extractHeaders (injectTitle text title)).isEmpty then injectTitle text title
    else
      replaceFirstChar '#'
        ("# ".data ++ title ++ "\n\n".data ++
          tocFold (extractHeaders (injectTitle text title)) ++ "\n#".data)
        (injectTitle text title)
  else injectTitle text title

/-- The `optimization_stats` dict of `AIOptimizer._calculate_stats`. -/
structure OptimizationStats where
  originalLength : Nat
  optimizedLength : Nat
  lengthChange : Int
  paragraphCount : Nat
  headerCount : Nat
  deriving DecidableEq, Repr

/-- Model of `AIOptimizer._calculate_stats`. -/
def calcStats (original optimized : List Char) : OptimizationStats :=
  { originalLength := original.length
    optimizedLength := optimized.length
    lengthChange := (optimized.length : Int) - (original.length : Int)
    paragraphCount := countSub '\n' "\n".data optimized + 1
    headerCount := optimized.count '#' }

/-- The result dict of `AIOptimizer.optimize_text` (the persisted file path
is omitted from the model). -/
structure OptimizationResult where
  title : List Char
  originalText : List Char
  optimizedText : List Char
  stats : OptimizationStats
  deriving DecidableEq, Repr

/-- Model of `AIOptimizer.optimize_text`: preprocess, call the AI gateway,
postprocess, and compute statistics against the original text. -/
def optimizeText (apiKey : Option (List Char)) (template : List Char) (resp : AIResp)
    (text title : List Char) : OptimizationResult :=
  let processed := preprocessTextL text
  let optimized := callAIOptimizationL apiKey template processed resp
  let finalText := postprocessTextL optimized title
  ⟨title, text, finalText, calcStats text finalText⟩

/-! ## Derived notions used by the claims -/

/-- The original indices stored across the three sequences of a
`DocStructure`, in bucket order. -/
def structIndices (st : DocStructure) : List Nat :=
  st.titles.map (·.index) ++ st.lists.map (·.index) ++ st.paragraphs.map (·.index)

/-- The header texts of the level-2 heading lines found by the header scan. -/
def level2Headings (text : List Char) : List (List Char) :=
  (extractHeaders text).filterMap (fun p => if p.1 = "##".data then some p.2 else none)

/-- The length contributed to the segmentation buffer by one sentence
fragment: zero if it strips to empty, else the length of the stripped
fragment with its terminator appended. -/
def augLenOf (s : List Char) : Nat :=
  if pyStrip s = [] then 0 else (augSentence (pyStrip s)).length

/-- The largest single buffer contribution over all sentence fragments of a
text. -/
def maxAugLen (text : List Char) : Nat :=
  ((splitOnPred isSentEnd text).map augLenOf).foldr max 0

/-- The concatenation of all terminator-augmented nonempty stripped sentence
fragments: every segmentation buffer is a contiguous slice of this list. -/
def concatAug : List (List Char) → List Char
  | [] => []
  | s :: rest => (if pyStrip s = [] then [] else augSentence (pyStrip s)) ++ concatAug rest

/-- The head of the list, if any, is not whitespace. -/
def headNotWs : List Char → Bool
  | [] => true
  | d :: _ => !isWs d

/-- Well-spacedness: every whitespace character is a single `' '` not
followed by further whitespace (the shape of `collapseWs` output). -/
def spacedOK : List Char → Bool
  | [] => true
  | c :: cs => (!isWs c || (decide (c = ' ') && headNotWs cs)) && spacedOK cs

/-! ## Lemmas: prefixes and substring occurrence -/

theorem startsWL_iff {p l : List Char} : startsWL p l = true ↔ ∃ t, l = p ++ t := by
  induction p generalizing l with
  | nil => simp [startsWL]
  | cons a as ih =>
    cases l with
    | nil => simp [startsWL]
    | cons b bs =>
      simp only [startsWL, Bool.and_eq_true, decide_eq_true_eq, ih, List.cons_append,
        List.cons.injEq]
      constructor
      · rintro ⟨rfl, t, rfl⟩; exact ⟨t, rfl, rfl⟩
      · rintro ⟨t, rfl, rfl⟩; exact ⟨rfl, t, rfl⟩

theorem subOccL_iff {p l : List Char} : subOccL p l = true ↔ ∃ a b, l = a ++ p ++ b := by
  induction l with
  | nil =>
    simp only [subOccL, startsWL_iff]
    constructor
    · rintro ⟨t, ht⟩; exact ⟨[], t, by simpa using ht⟩
    · rintro ⟨a, b, h⟩
      have h' : a ++ p ++ b = [] := h.symm
      rw [List.append_eq_nil, List.append_eq_nil] at h'
      exact ⟨b, by simp [h'.1.2, h'.2]⟩
  | cons c cs ih =>
    simp only [subOccL, Bool.or_eq_true, startsWL_iff, ih]
    constructor
    · rintro (⟨t, ht⟩ | ⟨a, b, rfl⟩)
      · exact ⟨[], t, by simpa using ht⟩
      · exact ⟨c :: a, b, rfl⟩
    · rintro ⟨a, b, h⟩
      cases a with
      | nil => exact Or.inl ⟨b, by simpa using h⟩
      | cons x xs =>
        right
        simp only [List.cons_append, List.cons.injEq] at h
        exact ⟨xs, b, h.2⟩

theorem subOccL_append_right {p a : List Char} (b : List Char)
    (h : subOccL p a = true) : subOccL p (a ++ b) = true := by
  rcases subOccL_iff.mp h with ⟨x, y, rfl⟩
  exact subOccL_iff.mpr ⟨x, y ++ b, by simp⟩

theorem subOccL_append_left {p b : List Char} (a : List Char)
    (h : subOccL p b = true) : subOccL p (a ++ b) = true := by
  rcases subOccL_iff.mp h with ⟨x, y, rfl⟩
  exact subOccL_iff.mpr ⟨a ++ x, y, by simp⟩

/-! ## Lemmas: stripping whitespace -/

theorem stripRightWs_eq (l : List Char) :
    stripRightWs l = (l.reverse.dropWhile isWs).reverse := by
  induction l with
  | nil => rfl
  | cons c cs ih =>
    simp only [stripRightWs, List.reverse_cons, List.dropWhile_append, ih]
    by_cases h : cs.reverse.dropWhile isWs = []
    · by_cases hw : isWs c = true <;>
        simp [h, List.dropWhile_cons, hw]
    · simp [h, List.isEmpty_iff, List.reverse_eq_nil_iff]

theorem stripRightWs_nil_iff {l : List Char} :
    stripRightWs l = [] ↔ ∀ c ∈ l, isWs c = true := by
  rw [stripRightWs_eq, List.reverse_eq_nil_iff, List.dropWhile_eq_nil_iff]
  simp

theorem stripRightWs_length_le (l : List Char) : (stripRightWs l).length ≤ l.length := by
  rw [stripRightWs_eq]
  simpa using (List.dropWhile_sublist isWs (l := l.reverse)).length_le

theorem mem_stripRightWs {l : List Char} {c : Char} (h : c ∈ stripRightWs l) : c ∈ l := by
  rw [stripRightWs_eq, List.mem_reverse] at h
  simpa using (List.dropWhile_sublist isWs).mem h

/-- Splitting fact: `l` is `stripRightWs l` followed by its trailing whitespace run. -/
theorem stripRightWs_append_eq (l : List Char) :
    stripRightWs l ++ (l.reverse.takeWhile isWs).reverse = l := by
  rw [stripRightWs_eq, ← List.reverse_append, List.takeWhile_append_dropWhile,
    List.reverse_reverse]

theorem stripRightWs_head {l : List Char} {c : Char} {cs : List Char}
    (h : stripRightWs l = c :: cs) : ∃ ds, l = c :: ds := by
  have h2 := stripRightWs_append_eq l
  rw [h] at h2
  exact ⟨cs ++ (l.reverse.takeWhile isWs).reverse, by rw [← List.cons_append]; exact h2.symm⟩

theorem dropWhile_head_not {p : Char → Bool} {l : List Char} {c : Char} {cs : List Char}
    (h : l.dropWhile p = c :: cs) : p c = false := by
  induction l with
  | nil => simp [List.dropWhile] at h
  | cons d ds ih =>
    rw [List.dropWhile_cons] at h
    split at h
    · exact ih h
    · rename_i hd
      have : d = c := (List.cons.injEq .. ▸ h).1
      subst this
      simpa using hd

theorem stripRightWs_getLast {l : List Char} {c : Char}
    (h : (stripRightWs l).getLast? = some c) : isWs c = false := by
  rw [stripRightWs_eq, List.getLast?_reverse] at h
  cases hd : l.reverse.dropWhile isWs with
  | nil => rw [hd] at h; simp at h
  | cons x xs =>
    rw [hd] at h
    simp only [List.head?_cons, Option.some.injEq] at h
    subst h
    exact dropWhile_head_not hd

theorem stripRightWs_eq_self {l : List Char} {c : Char}
    (h : l.getLast? = some c) (hc : isWs c = false) : stripRightWs l = l := by
  rw [stripRightWs_eq]
  have hh : l.reverse.head? = some c := by rw [List.head?_reverse]; exact h
  cases hr : l.reverse with
  | nil => rw [hr] at hh; simp at hh
  | cons x xs =>
    rw [hr] at hh
    simp only [List.head?_cons, Option.some.injEq] at hh
    subst hh
    have hd : List.dropWhile isWs (x :: xs) = x :: xs := by
      simp [List.dropWhile_cons, hc]
    have hl : l = (x :: xs).reverse := by rw [← hr, List.reverse_reverse]
    rw [hd, ← hl]

theorem stripRightWs_append_cons {c : Char} (hc : isWs c = false) (a b : List Char) :
    stripRightWs (a ++ c :: b) = a ++ c :: stripRightWs b := by
  rw [stripRightWs_eq, stripRightWs_eq]
  rw [show (a ++ c :: b).reverse = b.reverse ++ c :: a.reverse by simp]
  rw [List.dropWhile_append]
  by_cases h : b.reverse.dropWhile isWs = []
  · rw [h]
    simp only [List.isEmpty_nil, if_true, List.dropWhile_cons, hc]
    simp
  · rw [if_neg (by simpa [List.isEmpty_iff] using h)]
    simp [h]

theorem pyStrip_length_le (l : List Char) : (pyStrip l).length ≤ l.length :=
  le_trans (stripRightWs_length_le _) (List.dropWhile_sublist isWs).length_le

theorem mem_pyStrip {l : List Char} {c : Char} (h : c ∈ pyStrip l) : c ∈ l :=
  (List.dropWhile_sublist isWs).mem (mem_stripRightWs h)

theorem pyStrip_head {l : List Char} {c : Char} {cs : List Char}
    (h : pyStrip l = c :: cs) : isWs c = false := by
  rcases stripRightWs_head h with ⟨ds, hd⟩
  exact dropWhile_head_not hd

theorem pyStrip_nil_iff {l : List Char} : pyStrip l = [] ↔ ∀ c ∈ l, isWs c = true := by
  unfold pyStrip
  rw [stripRightWs_nil_iff]
  constructor
  · intro h c hc
    by_cases hw : isWs c = true
    · exact hw
    · exfalso
      have : c ∈ l.dropWhile isWs := by
        induction l with
        | nil => simp at hc
        | cons d ds ih =>
          rw [List.dropWhile_cons]
          rcases List.mem_cons.mp hc with rfl | hmem
          · simp [hw]
          · split
            · exact ih (fun x hx => h x (by rw [List.dropWhile_cons]; simp_all)) hmem
            · simp [hmem]
      exact hw (h c this)
  · intro h c hc
    exact h c ((List.dropWhile_sublist isWs).mem hc)

theorem pyStrip_ne_nil_of_mem {l : List Char} {c : Char} (hc : c ∈ l)
    (hw : isWs c = false) : pyStrip l ≠ [] := by
  intro h
  rw [pyStrip_nil_iff] at h
  rw [h c hc] at hw
  simp at hw

/-! ## Lemmas: structural classification covers all indices (C3) -/

theorem analyzeAux_cons_title {p : List Char} (i : Nat) (ps : List (List Char))
    (ht : isTitleL p = true) :
    analyzeAux i (p :: ps) =
      ⟨⟨i, p, getTitleLevel p⟩ :: (analyzeAux (i + 1) ps).titles,
        (analyzeAux (i + 1) ps).lists, (analyzeAux (i + 1) ps).paragraphs⟩ := by
  simp [analyzeAux, ht]

theorem analyzeAux_cons_list {p : List Char} (i : Nat) (ps : List (List Char))
    (ht : isTitleL p = false) (hl : isListL p = true) :
    analyzeAux i (p :: ps) =
      ⟨(analyzeAux (i + 1) ps).titles,
        ⟨i, p, getListType p⟩ :: (analyzeAux (i + 1) ps).lists,
        (analyzeAux (i + 1) ps).paragraphs⟩ := by
  simp [analyzeAux, ht, hl]

theorem analyzeAux_cons_body {p : List Char} (i : Nat) (ps : List (List Char))
    (ht : isTitleL p = false) (hl : isListL p = false) :
    analyzeAux i (p :: ps) =
      ⟨(analyzeAux (i + 1) ps).titles, (analyzeAux (i + 1) ps).lists,
        ⟨i, p⟩ :: (analyzeAux (i + 1) ps).paragraphs⟩ := by
  simp [analyzeAux, ht, hl]

theorem analyzeAux_indices (ps : List (List Char)) : ∀ i : Nat,
    (structIndices (analyzeAux i ps)).Perm (List.range' i ps.length) := by
  induction ps with
  | nil => intro i; simp [analyzeAux, structIndices, List.range']
  | cons p ps ih =>
    intro i
    have hr : List.range' i (p :: ps).length = i :: List.range' (i + 1) ps.length := rfl
    rw [hr]
    cases ht : isTitleL p with
    | true =>
      rw [analyzeAux_cons_title i ps ht]
      simpa [structIndices] using (ih (i + 1)).cons i
    | false =>
      cases hl : isListL p with
      | true =>
        rw [analyzeAux_cons_list i ps ht hl]
        simp only [structIndices, List.map_cons]
        have hm : (analyzeAux (i + 1) ps).titles.map (fun e => e.index) ++
            (i :: (analyzeAux (i + 1) ps).lists.map (fun e => e.index)) ++
            (analyzeAux (i + 1) ps).paragraphs.map (fun e => e.index) =
            (analyzeAux (i + 1) ps).titles.map (fun e => e.index) ++
            i :: ((analyzeAux (i + 1) ps).lists.map (fun e => e.index) ++
              (analyzeAux (i + 1) ps).paragraphs.map (fun e => e.index)) := by
          simp [List.append_assoc]
        rw [hm]
        refine List.perm_middle.trans ?_
        exact (by simpa [structIndices, List.append_assoc] using (ih (i + 1)).cons i)
      | false =>
        rw [analyzeAux_cons_body i ps ht hl]
        simp only [structIndices, List.map_cons]
        have hm : (analyzeAux (i + 1) ps).titles.map (fun e => e.index) ++
            (analyzeAux (i + 1) ps).lists.map (fun e => e.index) ++
            (i :: (analyzeAux (i + 1) ps).paragraphs.map (fun e => e.index)) =
            ((analyzeAux (i + 1) ps).titles.map (fun e => e.index) ++
              (analyzeAux (i + 1) ps).lists.map (fun e => e.index)) ++
            i :: (analyzeAux (i + 1) ps).paragraphs.map (fun e => e.index) := by
          simp [List.append_assoc]
        rw [hm]
        refine List.perm_middle.trans ?_
        exact (by simpa [structIndices, List.append_assoc] using (ih (i + 1)).cons i)

/-! ## Lemmas: pattern matchers (C10) -/

theorem matchStar_mono {dig cls sep : Char → Bool}
    (hsub : ∀ c, dig c = true → cls c = true)
    (hdisj : ∀ c, sep c = true → cls c = false) :
    ∀ {l : List Char}, matchStar dig sep l = true → matchStar cls sep l = true := by
  intro l
  induction l with
  | nil => simp [matchStar]
  | cons c cs ih =>
    intro h
    rw [matchStar] at h ⊢
    by_cases hd : dig c = true
    · rw [if_pos hd] at h
      rw [if_pos (hsub c hd)]
      exact ih h
    · rw [if_neg hd] at h
      rw [if_neg (by simp [hdisj c h])]
      exact h

theorem matchPlus_mono {dig cls sep : Char → Bool}
    (hsub : ∀ c, dig c = true → cls c = true)
    (hdisj : ∀ c, sep c = true → cls c = false) :
    ∀ {l : List Char}, matchPlus dig sep l = true → matchPlus cls sep l = true := by
  intro l h
  cases l with
  | nil => simp [matchPlus] at h
  | cons c cs =>
    rw [matchPlus, Bool.and_eq_true] at h ⊢
    exact ⟨hsub c h.1, matchStar_mono hsub hdisj h.2⟩

theorem matchStar_decomp {cls sep : Char → Bool} :
    ∀ {l : List Char}, matchStar cls sep l = true →
      ∃ a c b, l = a ++ c :: b ∧ (∀ x ∈ a, cls x = true) ∧ sep c = true := by
  intro l
  induction l with
  | nil => simp [matchStar]
  | cons c cs ih =>
    intro h
    rw [matchStar] at h
    by_cases hd : cls c = true
    · rw [if_pos hd] at h
      rcases ih h with ⟨a, d, b, rfl, ha, hd2⟩
      exact ⟨c :: a, d, b, rfl, by simpa [hd] using ha, hd2⟩
    · rw [if_neg hd] at h
      exact ⟨[], c, cs, rfl, by simp, h⟩

theorem matchStar_of_decomp {cls sep : Char → Bool}
    (hdisj : ∀ c, sep c = true → cls c = false) :
    ∀ (a : List Char) {c : Char} (b : List Char), (∀ x ∈ a, cls x = true) → sep c = true →
      matchStar cls sep (a ++ c :: b) = true := by
  intro a
  induction a with
  | nil =>
    intro c b _ hc
    simpa [matchStar, hdisj c hc] using hc
  | cons x xs ih =>
    intro c b ha hc
    rw [List.cons_append, matchStar, if_pos (ha x (by simp))]
    exact ih b (fun y hy => ha y (by simp [hy])) hc

theorem matchPlus_decomp {cls sep : Char → Bool} {l : List Char}
    (h : matchPlus cls sep l = true) :
    ∃ a c b, l = a ++ c :: b ∧ a ≠ [] ∧ (∀ x ∈ a, cls x = true) ∧ sep c = true := by
  cases l with
  | nil => simp [matchPlus] at h
  | cons c cs =>
    rw [matchPlus, Bool.and_eq_true] at h
    rcases matchStar_decomp h.2 with ⟨a, d, b, rfl, ha, hd⟩
    exact ⟨c :: a, d, b, rfl, by simp, by simpa [h.1] using ha, hd⟩

theorem matchPlus_of_decomp {cls sep : Char → Bool}
    (hdisj : ∀ c, sep c = true → cls c = false)
    {a : List Char} {c : Char} {b : List Char}
    (hne : a ≠ []) (ha : ∀ x ∈ a, cls x = true) (hc : sep c = true) :
    matchPlus cls sep (a ++ c :: b) = true := by
  cases a with
  | nil => exact absurd rfl hne
  | cons x xs =>
    rw [List.cons_append, matchPlus, Bool.and_eq_true]
    exact ⟨ha x (by simp), matchStar_of_decomp hdisj xs b (fun y hy => ha y (by simp [hy])) hc⟩

/-- The seven modelled whitespace characters. -/
theorem isWs_cases {c : Char} (h : isWs c = true) :
    c = ' ' ∨ c = '\t' ∨ c = '\n' ∨ c = '\r' ∨ c = '\x0b' ∨ c = '\x0c' ∨ c = '　' := by
  simpa [isWs, Bool.or_eq_true, decide_eq_true_eq, or_assoc] using h

theorem isOrdSep_not_ws {c : Char} (h : isOrdSep c = true) : isWs c = false := by
  rcases (by simpa [isOrdSep, Bool.or_eq_true, decide_eq_true_eq, or_assoc] using h :
      c = '、' ∨ c = '．' ∨ c = '.') with rfl | rfl | rfl <;> decide

theorem isOrdSep_not_cnOrDigit {c : Char} (h : isOrdSep c = true) :
    isCnNumOrDigit c = false := by
  rcases (by simpa [isOrdSep, Bool.or_eq_true, decide_eq_true_eq, or_assoc] using h :
      c = '、' ∨ c = '．' ∨ c = '.') with rfl | rfl | rfl <;> decide

theorem isOrdSep_not_digit {c : Char} (h : isOrdSep c = true) : c.isDigit = false := by
  rcases (by simpa [isOrdSep, Bool.or_eq_true, decide_eq_true_eq, or_assoc] using h :
      c = '、' ∨ c = '．' ∨ c = '.') with rfl | rfl | rfl <;> decide

theorem isOrdSep_not_cn {c : Char} (h : isOrdSep c = true) : isCnNum c = false := by
  rcases (by simpa [isOrdSep, Bool.or_eq_true, decide_eq_true_eq, or_assoc] using h :
      c = '、' ∨ c = '．' ∨ c = '.') with rfl | rfl | rfl <;> decide

theorem isDigit_not_ws {c : Char} (h : c.isDigit = true) : isWs c = false := by
  cases hw : isWs c
  · rfl
  · exfalso
    rcases isWs_cases hw with rfl | rfl | rfl | rfl | rfl | rfl | rfl <;>
      exact absurd h (by decide)

theorem isCnNum_not_ws {c : Char} (h : isCnNum c = true) : isWs c = false := by
  cases hw : isWs c
  · rfl
  · exfalso
    rcases isWs_cases hw with rfl | rfl | rfl | rfl | rfl | rfl | rfl <;>
      exact absurd h (by decide)

theorem digit_cnOrDigit {c : Char} (h : c.isDigit = true) : isCnNumOrDigit c = true := by
  simp [isCnNumOrDigit, h]

theorem cn_cnOrDigit {c : Char} (h : isCnNum c = true) : isCnNumOrDigit c = true := by
  simp [isCnNumOrDigit, h]

theorem matchPlus_stripRightWs {cls sep : Char → Bool}
    (hdisj : ∀ c, sep c = true → cls c = false)
    (hsw : ∀ c, sep c = true → isWs c = false)
    {l : List Char} (h : matchPlus cls sep l = true) :
    matchPlus cls sep (stripRightWs l) = true := by
  rcases matchPlus_decomp h with ⟨a, c, b, rfl, hne, ha, hc⟩
  rw [stripRightWs_append_cons (hsw c hc)]
  exact matchPlus_of_decomp hdisj hne ha hc

theorem matchPlus_head {cls sep : Char → Bool} {l : List Char}
    (h : matchPlus cls sep l = true) : ∃ c cs, l = c :: cs ∧ cls c = true := by
  cases l with
  | nil => simp [matchPlus] at h
  | cons c cs =>
    rw [matchPlus, Bool.and_eq_true] at h
    exact ⟨c, cs, rfl, h.1⟩

theorem listP1_pyStrip {s : List Char} (h : listP1 s = true) :
    listP1 (pyStrip s) = true := by
  unfold listP1 at h ⊢
  obtain ⟨c, cs, rfl, hc⟩ := matchPlus_head h
  unfold pyStrip
  rw [List.dropWhile_cons, if_neg (by simp [isDigit_not_ws hc])]
  exact matchPlus_stripRightWs (fun d hd => isOrdSep_not_digit hd)
    (fun d hd => isOrdSep_not_ws hd) h

theorem listP2_pyStrip {s : List Char} (h : listP2 s = true) :
    listP2 (pyStrip s) = true := by
  unfold listP2 at h ⊢
  obtain ⟨c, cs, rfl, hc⟩ := matchPlus_head h
  unfold pyStrip
  rw [List.dropWhile_cons, if_neg (by simp [isCnNum_not_ws hc])]
  exact matchPlus_stripRightWs (fun d hd => isOrdSep_not_cn hd)
    (fun d hd => isOrdSep_not_ws hd) h

/-- Core of C10: a text that matches no title pattern on its stripped form
gets list kind `bullet`, because the numeric-dot and ordinal-word list
patterns are subsumed by title pattern 2. -/
theorem getListType_bullet {s : List Char} (ht : isTitleL s = false) :
    getListType s = "bullet".data := by
  have ht2 : titleP2 (pyStrip s) = false := by
    unfold isTitleL at ht
    simp only [Bool.or_eq_false_iff] at ht
    exact ht.1.1.2
  have h1s : listP1 (pyStrip s) = false := by
    cases h : listP1 (pyStrip s) with
    | false => rfl
    | true =>
      exfalso
      have := matchPlus_mono (fun c hc => digit_cnOrDigit hc) (fun c hc => isOrdSep_not_cnOrDigit hc) h
      rw [show matchPlus isCnNumOrDigit isOrdSep (pyStrip s) = titleP2 (pyStrip s) from rfl,
        ht2] at this
      simp at this
  have h2s : listP2 (pyStrip s) = false := by
    cases h : listP2 (pyStrip s) with
    | false => rfl
    | true =>
      exfalso
      have := matchPlus_mono (fun c hc => cn_cnOrDigit hc) (fun c hc => isOrdSep_not_cnOrDigit hc) h
      rw [show matchPlus isCnNumOrDigit isOrdSep (pyStrip s) = titleP2 (pyStrip s) from rfl,
        ht2] at this
      simp at this
  have h1 : listP1 s = false := by
    cases h : listP1 s with
    | false => rfl
    | true => rw [listP1_pyStrip h] at h1s; exact absurd h1s (by simp)
  have h2 : listP2 s = false := by
    cases h : listP2 s with
    | false => rfl
    | true => rw [listP2_pyStrip h] at h2s; exact absurd h2s (by simp)
  unfold getListType
  rw [h1, h2]
  simp

/-- Every entry of the `lists` bucket is recorded with the list kind of its
text, and its text failed the title test. -/
theorem analyzeAux_lists_inv (ps : List (List Char)) : ∀ (i : Nat)
    (e : ListEntry), e ∈ (analyzeAux i ps).lists →
    e.type = getListType e.text ∧ isTitleL e.text = false := by
  induction ps with
  | nil => intro i e he; simp [analyzeAux] at he
  | cons p ps ih =>
    intro i e he
    cases ht : isTitleL p with
    | true =>
      rw [analyzeAux_cons_title i ps ht] at he
      exact ih (i + 1) e he
    | false =>
      cases hl : isListL p with
      | true =>
        rw [analyzeAux_cons_list i ps ht hl] at he
        rcases List.mem_cons.mp he with rfl | he
        · exact ⟨rfl, ht⟩
        · exact ih (i + 1) e he
      | false =>
        rw [analyzeAux_cons_body i ps ht hl] at he
        exact ih (i + 1) e he

/-! ## Lemmas: the normalization pass (C5) -/

theorem spacedOK_tail {c : Char} {cs : List Char} (h : spacedOK (c :: cs) = true) :
    spacedOK cs = true := by
  rw [spacedOK, Bool.and_eq_true] at h
  exact h.2

theorem headNotWs_collapseWsAux_true (l : List Char) :
    headNotWs (collapseWsAux true l) = true := by
  induction l with
  | nil => rfl
  | cons c cs ih =>
    by_cases hw : isWs c = true
    · rw [collapseWsAux, if_pos hw, if_pos rfl]
      exact ih
    · rw [collapseWsAux, if_neg (by simp [hw])]
      simp [headNotWs, (by simpa using hw : isWs c = false)]

theorem spacedOK_collapseWsAux (l : List Char) : ∀ b : Bool,
    spacedOK (collapseWsAux b l) = true := by
  induction l with
  | nil => intro b; rfl
  | cons c cs ih =>
    intro b
    by_cases hw : isWs c = true
    · cases b with
      | true =>
        rw [collapseWsAux, if_pos hw, if_pos rfl]
        exact ih true
      | false =>
        rw [collapseWsAux, if_pos hw, if_neg (by simp)]
        rw [spacedOK, Bool.and_eq_true]
        refine ⟨?_, ih true⟩
        simp [headNotWs_collapseWsAux_true cs]
    · rw [collapseWsAux, if_neg (by simp [hw])]
      rw [spacedOK, Bool.and_eq_true]
      exact ⟨by simp [(by simpa using hw : isWs c = false)], ih false⟩

theorem collapseWs_spacedOK (l : List Char) : spacedOK (collapseWs l) = true :=
  spacedOK_collapseWsAux l false

theorem collapseWsAux_eq_self {l : List Char} (h : spacedOK l = true) :
    collapseWsAux false l = l ∧ (headNotWs l = true → collapseWsAux true l = l) := by
  induction l with
  | nil => exact ⟨rfl, fun _ => rfl⟩
  | cons c cs ih =>
    rw [spacedOK, Bool.and_eq_true] at h
    rcases ih h.2 with ⟨ihf, iht⟩
    by_cases hw : isWs c = true
    · have hc : ((decide (c = ' ') && headNotWs cs) = true) := by
        rcases Bool.or_eq_true_iff.mp h.1 with h1 | h1
        · rw [hw] at h1; simp at h1
        · exact h1
      rw [Bool.and_eq_true] at hc
      have hceq : c = ' ' := by simpa using hc.1
      constructor
      · rw [collapseWsAux, if_pos hw, if_neg (by simp), iht hc.2, hceq]
      · intro hh
        exfalso
        cases cs with
        | nil => simp [headNotWs, hw] at hh
        | cons d ds => simp [headNotWs, hw] at hh
    · have hw' : isWs c = false := by simpa using hw
      constructor
      · rw [collapseWsAux, if_neg (by simp [hw']), ihf]
      · intro _
        rw [collapseWsAux, if_neg (by simp [hw']), ihf]

theorem collapseWs_eq_self {l : List Char} (h : spacedOK l = true) :
    collapseWs l = l :=
  (collapseWsAux_eq_self h).1

theorem mem_collapseWsAux {c : Char} : ∀ {l : List Char} {b : Bool},
    c ∈ collapseWsAux b l → c = ' ' ∨ c ∈ l := by
  intro l
  induction l with
  | nil => intro b h; simp [collapseWsAux] at h
  | cons d ds ih =>
    intro b h
    by_cases hw : isWs d = true
    · rw [collapseWsAux, if_pos hw] at h
      cases b with
      | true =>
        rw [if_pos rfl] at h
        rcases ih h with h | h
        · exact Or.inl h
        · exact Or.inr (List.mem_cons_of_mem _ h)
      | false =>
        rw [if_neg (by simp)] at h
        rcases List.mem_cons.mp h with rfl | h
        · exact Or.inl rfl
        · rcases ih h with h | h
          · exact Or.inl h
          · exact Or.inr (List.mem_cons_of_mem _ h)
    · rw [collapseWsAux, if_neg (by simp [hw])] at h
      rcases List.mem_cons.mp h with rfl | h
      · exact Or.inr (by simp)
      · rcases ih h with h | h
        · exact Or.inl h
        · exact Or.inr (List.mem_cons_of_mem _ h)

theorem mem_collapseWs {l : List Char} {c : Char} (h : c ∈ collapseWs l) :
    c = ' ' ∨ c ∈ l :=
  mem_collapseWsAux h


theorem spacedOK_dropWhile {p : Char → Bool} {l : List Char} (h : spacedOK l = true) :
    spacedOK (l.dropWhile p) = true := by
  induction l with
  | nil => simpa using h
  | cons c cs ih =>
    rw [List.dropWhile_cons]
    split
    · exact ih (spacedOK_tail h)
    · exact h

theorem spacedOK_stripRightWs {l : List Char} (h : spacedOK l = true) :
    spacedOK (stripRightWs l) = true := by
  induction l with
  | nil => simpa using h
  | cons c cs ih =>
    simp only [stripRightWs]
    split
    · simp [spacedOK]
    · rw [spacedOK, Bool.and_eq_true]
      rw [spacedOK, Bool.and_eq_true] at h
      refine ⟨?_, ih h.2⟩
      rcases Bool.or_eq_true_iff.mp h.1 with h1 | h1
      · simp [h1]
      · rw [Bool.and_eq_true] at h1
        refine Bool.or_eq_true_iff.mpr (Or.inr ?_)
        rw [Bool.and_eq_true]
        refine ⟨h1.1, ?_⟩
        cases hr : stripRightWs cs with
        | nil => simp [headNotWs]
        | cons x xs =>
          rcases stripRightWs_head hr with ⟨ds, hds⟩
          rw [hds] at h1
          simpa [headNotWs] using h1.2

theorem canonPunct_id (l : List Char) : canonPunct l = l := by
  unfold canonPunct
  induction l with
  | nil => rfl
  | cons c cs ih =>
    simp only [List.map_cons, List.cons.injEq]
    constructor
    · by_cases h1 : c = '，'
      · subst h1; simp
      · by_cases h2 : c = '。' <;> simp [h1, h2]
    · exact ih

theorem cleanText_fix {l : List Char} (hall : ∀ c ∈ l, allowedChar c = true) :
    cleanTextL l = pyStrip (collapseWs l) := by
  unfold cleanTextL
  have hfix : (collapseWs l).filter allowedChar = collapseWs l := by
    rw [List.filter_eq_self]
    intro c hc
    rcases mem_collapseWs hc with rfl | hc
    · simp [allowedChar, isWs]
    · exact hall c hc
  rw [hfix, canonPunct_id]

theorem cleanText_allowed {l : List Char} : ∀ c ∈ cleanTextL l, allowedChar c = true := by
  intro c hc
  unfold cleanTextL at hc
  rw [canonPunct_id] at hc
  exact (List.mem_filter.mp (mem_pyStrip hc)).2

/-- A text made of allowed characters reaches a fixed point of the
normalization after one application. -/
theorem cleanText_image_fix {z : List Char} (hz : ∀ c ∈ z, allowedChar c = true) :
    cleanTextL (cleanTextL z) = cleanTextL z := by
  have hy : cleanTextL z = pyStrip (collapseWs z) := cleanText_fix hz
  set y := cleanTextL z with hydef
  have hyall : ∀ c ∈ y, allowedChar c = true := fun c hc => cleanText_allowed c hc
  have hsp : spacedOK y = true := by
    rw [hy]
    exact spacedOK_stripRightWs (spacedOK_dropWhile (collapseWs_spacedOK z))
  have hdw : y.dropWhile isWs = y := by
    cases hc : y with
    | nil => rfl
    | cons c cs =>
      have : isWs c = false := by
        apply pyStrip_head (l := collapseWs z)
        rw [← hy, hc]
      rw [List.dropWhile_cons, if_neg (by simp [this])]
  have hsr : stripRightWs y = y := by
    cases hlast : y.getLast? with
    | none => rw [List.getLast?_eq_none_iff.mp hlast]; rfl
    | some c =>
      refine stripRightWs_eq_self hlast ?_
      apply stripRightWs_getLast (l := (collapseWs z).dropWhile isWs)
      rw [show stripRightWs ((collapseWs z).dropWhile isWs) = pyStrip (collapseWs z) from rfl,
        ← hy, hlast]
  calc cleanTextL y = pyStrip (collapseWs y) := cleanText_fix hyall
    _ = pyStrip y := by rw [collapseWs_eq_self hsp]
    _ = stripRightWs y := by unfold pyStrip; rw [hdw]
    _ = y := hsr

/-! ## Lemmas: segmentation (C2, C8) -/

theorem shouldSplit_false_le {b : List Char} (h : shouldSplitParagraph b = false) :
    b.length ≤ 200 := by
  unfold shouldSplitParagraph at h
  rw [Bool.or_eq_false_iff] at h
  have := h.1
  simp only [decide_eq_false_iff_not, not_lt] at this
  exact this

theorem augLenOf_of_ne {s : List Char} (h : pyStrip s ≠ []) :
    (augSentence (pyStrip s)).length = augLenOf s := by
  unfold augLenOf
  rw [if_neg h]

theorem augSentence_has_head {c : Char} {cs : List Char} :
    c ∈ augSentence (c :: cs) := by
  unfold augSentence
  split
  · simp
  · simp

theorem splitParagraphsAux_bound (sents : List (List Char)) : ∀ (buf : List Char) (M : Nat),
    (∀ s ∈ sents, augLenOf s ≤ M) → buf.length ≤ 200 →
    ∀ p ∈ splitParagraphsAux sents buf, p.length ≤ 200 + M := by
  induction sents with
  | nil =>
    intro buf M _ hb p hp
    rw [splitParagraphsAux] at hp
    split at hp
    · simp at hp
    · rcases List.mem_singleton.mp hp with rfl
      calc (pyStrip buf).length ≤ buf.length := pyStrip_length_le buf
        _ ≤ 200 + M := by omega
  | cons s rest ih =>
    intro buf M hM hb p hp
    simp only [splitParagraphsAux] at hp
    by_cases hs : pyStrip s = []
    · rw [if_pos hs] at hp
      exact ih buf M (fun t ht => hM t (by simp [ht])) hb p hp
    · rw [if_neg hs] at hp
      have haug : (buf ++ augSentence (pyStrip s)).length ≤ 200 + M := by
        rw [List.length_append, augLenOf_of_ne hs]
        have := hM s (by simp)
        omega
      split at hp
      · rcases List.mem_append.mp hp with hp | hp
        · split at hp
          · simp at hp
          · rcases List.mem_singleton.mp hp with rfl
            calc (pyStrip (buf ++ augSentence (pyStrip s))).length
                ≤ (buf ++ augSentence (pyStrip s)).length := pyStrip_length_le _
              _ ≤ 200 + M := haug
        · exact ih [] M (fun t ht => hM t (by simp [ht])) (by simp) p hp
      · rename_i hns
        refine ih (buf ++ augSentence (pyStrip s)) M (fun t ht => hM t (by simp [ht])) ?_ p hp
        exact shouldSplit_false_le (by simpa using hns)

theorem concatAug_cons (s : List Char) (rest : List (List Char)) :
    concatAug (s :: rest) =
      (if pyStrip s = [] then [] else augSentence (pyStrip s)) ++ concatAug rest := rfl

theorem segAgree (sents : List (List Char)) : ∀ buf : List Char,
    (∀ kw ∈ splitKeywords, subOccL kw (buf ++ concatAug sents) = false) →
    splitParagraphsAux sents buf = preSegAux sents buf := by
  induction sents with
  | nil => intro buf _; rfl
  | cons s rest ih =>
    intro buf h
    simp only [splitParagraphsAux, preSegAux]
    by_cases hs : pyStrip s = []
    · rw [if_pos hs, if_pos hs]
      refine ih buf ?_
      intro kw hkw
      have := h kw hkw
      rwa [concatAug_cons, if_pos hs, List.nil_append] at this
    · rw [if_neg hs, if_neg hs]
      have hsplit : ∀ kw ∈ splitKeywords,
          subOccL kw (buf ++ augSentence (pyStrip s)) = false := by
        intro kw hkw
        cases hocc : subOccL kw (buf ++ augSentence (pyStrip s)) with
        | false => rfl
        | true =>
          exfalso
          have h2 := subOccL_append_right (concatAug rest) hocc
          rw [List.append_assoc] at h2
          have h3 := h kw hkw
          rw [concatAug_cons, if_neg hs] at h3
          rw [h3] at h2
          simp at h2
      have hshould : shouldSplitParagraph (buf ++ augSentence (pyStrip s)) =
          decide ((buf ++ augSentence (pyStrip s)).length > 200) := by
        unfold shouldSplitParagraph
        rw [List.any_eq_false.mpr (fun x hx => by simp [hsplit x hx])]
        simp
      rw [hshould]
      have hkwrest : ∀ kw ∈ splitKeywords, subOccL kw ([] ++ concatAug rest) = false := by
        intro kw hkw
        cases hocc : subOccL kw ([] ++ concatAug rest) with
        | false => rfl
        | true =>
          exfalso
          rw [List.nil_append] at hocc
          have h2 := subOccL_append_left (buf ++ augSentence (pyStrip s)) hocc
          rw [List.append_assoc] at h2
          have h3 := h kw hkw
          rw [concatAug_cons, if_neg hs, ← List.append_assoc, List.append_assoc] at h3
          rw [h3] at h2
          simp at h2
      have hkwbuf : ∀ kw ∈ splitKeywords,
          subOccL kw ((buf ++ augSentence (pyStrip s)) ++ concatAug rest) = false := by
        intro kw hkw
        have h3 := h kw hkw
        rw [concatAug_cons, if_neg hs] at h3
        rwa [List.append_assoc]
      split
      · have hne : pyStrip (buf ++ augSentence (pyStrip s)) ≠ [] := by
          obtain ⟨c, cs, hcs⟩ := List.exists_cons_of_ne_nil hs
          refine pyStrip_ne_nil_of_mem (c := c) ?_ ?_
          · refine List.mem_append_right buf ?_
            rw [hcs]
            exact augSentence_has_head
          · exact pyStrip_head hcs
        rw [if_neg hne, List.singleton_append]
        rw [ih [] hkwrest]
      · exact ih (buf ++ augSentence (pyStrip s)) hkwbuf

/-! ## Lemmas: rewrite post-processing (C6, C7) -/

theorem exists_of_startsHash {s : List Char} (h : startsHash s = true) :
    ∃ tail, s = '#' :: tail := by
  cases s with
  | nil => simp [startsHash] at h
  | cons c cs =>
    unfold startsHash at h
    rw [decide_eq_true_eq] at h
    exact ⟨cs, by rw [h]⟩

theorem startsHash_cons (tail : List Char) : startsHash ('#' :: tail) = true := by
  simp [startsHash]

theorem injectTitle_startsHash (x t : List Char) :
    startsHash (injectTitle x t) = true := by
  unfold injectTitle
  split
  · assumption
  · rfl

theorem injectTitle_of_startsHash {s : List Char} (t : List Char)
    (h : startsHash s = true) : injectTitle s t = s := by
  unfold injectTitle
  rw [if_pos h]

theorem replaceFirstChar_cons (rep tail : List Char) :
    replaceFirstChar '#' rep ('#' :: tail) = rep ++ tail := by
  simp [replaceFirstChar]

theorem postprocess_cond_false {x t : List Char}
    (hcond : (subOccL "##".data (injectTitle x t) &&
      !subOccL "目录".data (injectTitle x t)) = false) :
    postprocessTextL x t = injectTitle x t := by
  unfold postprocessTextL
  rw [if_neg (by simp [hcond])]

theorem postprocess_headers_nil {x t : List Char}
    (hhe : extractHeaders (injectTitle x t) = []) :
    postprocessTextL x t = injectTitle x t := by
  unfold postprocessTextL
  split
  · rw [if_pos (by simp [hhe])]
  · rfl

theorem postprocess_splice {x t : List Char}
    (hcond : (subOccL "##".data (injectTitle x t) &&
      !subOccL "目录".data (injectTitle x t)) = true)
    (hhe : extractHeaders (injectTitle x t) ≠ []) :
    postprocessTextL x t = "# ".data ++ t ++ "\n\n".data ++
      tocFold (extractHeaders (injectTitle x t)) ++ "\n".data ++ injectTitle x t := by
  unfold postprocessTextL
  rw [if_pos hcond, if_neg (by simpa [List.isEmpty_iff] using hhe)]
  obtain ⟨tail, htail⟩ := exists_of_startsHash (injectTitle_startsHash x t)
  rw [htail, replaceFirstChar_cons]
  rw [show ("\n#".data : List Char) = '\n' :: '#' :: [] from rfl]
  simp [List.append_assoc]

theorem tocFold_acc (headers : List (List Char × List Char)) : ∀ acc : List Char,
    headers.foldl (fun acc p => if p.1 = "##".data then acc ++ tocEntry p.2 else acc) acc =
      acc ++ ((headers.filterMap
        (fun p => if p.1 = "##".data then some p.2 else none)).map tocEntry).flatten := by
  induction headers with
  | nil => intro acc; simp
  | cons p rest ih =>
    intro acc
    rw [List.foldl_cons]
    by_cases hp : p.1 = "##".data
    · rw [if_pos hp, ih]
      simp [List.filterMap_cons, hp, List.append_assoc]
    · rw [if_neg hp, ih]
      simp [List.filterMap_cons, hp]

theorem tocFold_eq (headers : List (List Char × List Char)) :
    tocFold headers = "## 目录\n\n".data ++
      ((headers.filterMap
        (fun p => if p.1 = "##".data then some p.2 else none)).map tocEntry).flatten :=
  tocFold_acc headers _

theorem startsHash_hashdata (a : List Char) : startsHash ("# ".data ++ a) = true := rfl

theorem subOcc_toc_marker {x t : List Char}
    (hcond : (subOccL "##".data (injectTitle x t) &&
      !subOccL "目录".data (injectTitle x t)) = true)
    (hhe : extractHeaders (injectTitle x t) ≠ []) :
    subOccL "目录".data (postprocessTextL x t) = true := by
  rw [postprocess_splice hcond hhe, tocFold_eq]
  apply subOccL_iff.mpr
  refine ⟨"# ".data ++ t ++ "\n\n".data ++ "## ".data,
    "\n\n".data ++ (((extractHeaders (injectTitle x t)).filterMap
      (fun p => if p.1 = "##".data then some p.2 else none)).map tocEntry).flatten ++
      "\n".data ++ injectTitle x t, ?_⟩
  rw [show ("## 目录\n\n".data : List Char) =
    "## ".data ++ "目录".data ++ "\n\n".data from rfl]
  simp [List.append_assoc]

theorem suffix_drop (x : List Char) (n : Nat) : ∃ a, x = a ++ x.drop n :=
  ⟨x.take n, (List.take_append_drop n x).symm⟩

theorem suffix_trans {x y z : List Char} (h1 : ∃ a, x = a ++ y) (h2 : ∃ b, y = b ++ z) :
    ∃ c, x = c ++ z := by
  rcases h1 with ⟨a, rfl⟩
  rcases h2 with ⟨b, rfl⟩
  exact ⟨a ++ b, by rw [List.append_assoc]⟩

theorem suffix_rev_takeWhile (x : List Char) (p : Char → Bool) :
    ∃ a, x = a ++ (x.reverse.takeWhile p).reverse := by
  refine ⟨(x.reverse.dropWhile p).reverse, ?_⟩
  rw [← List.reverse_append, List.takeWhile_append_dropWhile, List.reverse_reverse]

theorem tryHeaderMatch_fst {s : List Char} {pr : List Char × List Char} {r : List Char}
    (h : tryHeaderMatch s = some (pr, r)) :
    pr.1 = s.takeWhile (fun c => c = '#') := by
  simp only [tryHeaderMatch] at h
  split at h
  · exact absurd h (by simp)
  · split at h
    · exact absurd h (by simp)
    · split at h
      · rw [Option.some.injEq] at h
        exact (congrArg (fun z => z.1.1) h).symm
      · split at h
        · rw [Option.some.injEq] at h
          exact (congrArg (fun z => z.1.1) h).symm
        · exact absurd h (by simp)

theorem tryHeaderMatch_suffix {s : List Char} {pr : List Char × List Char} {r : List Char}
    (h : tryHeaderMatch s = some (pr, r)) : ∃ a, s = a ++ r := by
  simp only [tryHeaderMatch] at h
  split at h
  · exact absurd h (by simp)
  · split at h
    · exact absurd h (by simp)
    · split at h
      · rw [Option.some.injEq] at h
        have hr := congrArg (fun z => z.2) h
        simp only at hr
        rw [← hr]
        exact suffix_trans (suffix_drop s _)
          (suffix_trans (suffix_drop _ _) (suffix_drop _ _))
      · split at h
        · rw [Option.some.injEq] at h
          have hr := congrArg (fun z => z.2) h
          simp only at hr
          rw [← hr]
          exact suffix_trans (suffix_drop s _)
            (suffix_trans (suffix_drop _ 1) (suffix_rev_takeWhile _ _))
        · exact absurd h (by simp)

theorem scanHeadersF_mem : ∀ (fuel : Nat) (st : Bool) (u : List Char)
    (pr : List Char × List Char), pr ∈ scanHeadersF fuel st u →
    ∃ a v r, u = a ++ v ∧ tryHeaderMatch v = some ((pr.1, pr.2), r) := by
  intro fuel
  induction fuel with
  | zero =>
    intro st u pr h
    cases u <;> simp [scanHeadersF] at h
  | succ n ih =>
    intro st u pr h
    cases u with
    | nil => simp [scanHeadersF] at h
    | cons c cs =>
      rw [scanHeadersF] at h
      cases st with
      | false =>
        rw [if_neg (by simp)] at h
        rcases ih (c = '\n') cs pr h with ⟨a, v, r, hdecomp, hmatch⟩
        exact ⟨c :: a, v, r, by rw [hdecomp, List.cons_append], hmatch⟩
      | true =>
        rw [if_pos rfl] at h
        split at h
        · rename_i m heq
          rcases List.mem_cons.mp h with rfl | h
          · exact ⟨[], c :: cs, m.2, by simp, heq⟩
          · rcases ih false m.2 pr h with ⟨a, v, r, hdecomp, hmatch⟩
            rcases @tryHeaderMatch_suffix (c :: cs) m.1 m.2 heq with ⟨b, hb⟩
            exact ⟨b ++ a, v, r,
              by rw [hb, hdecomp, List.append_assoc], hmatch⟩
        · rcases ih (c = '\n') cs pr h with ⟨a, v, r, hdecomp, hmatch⟩
          exact ⟨c :: a, v, r, by rw [hdecomp, List.cons_append], hmatch⟩

theorem level2_site_shape {v : List Char} {pr : List Char × List Char} {r : List Char}
    (h : tryHeaderMatch v = some (pr, r)) (h2 : pr.1 = "##".data) :
    ∃ rest, v = '#' :: '#' :: rest := by
  have htw := tryHeaderMatch_fst h
  have hsplit := List.takeWhile_append_dropWhile (fun c => c = '#') v
  rw [← (h2.symm.trans htw)] at hsplit
  exact ⟨v.dropWhile (fun c => c = '#'), hsplit.symm⟩

theorem level2_mem {s h2 : List Char} (hmem : h2 ∈ level2Headings s) :
    ∃ pr ∈ extractHeaders s, pr.1 = "##".data ∧ pr.2 = h2 := by
  unfold level2Headings at hmem
  rcases List.mem_filterMap.mp hmem with ⟨pr, hpr, hf⟩
  by_cases hp : pr.1 = "##".data
  · rw [if_pos hp, Option.some.injEq] at hf
    exact ⟨pr, hpr, hp, hf⟩
  · rw [if_neg hp] at hf
    exact absurd hf (by simp)

theorem subOcc_hashes_of_level2 {s : List Char} (hne : level2Headings s ≠ []) :
    subOccL "##".data s = true := by
  rcases List.exists_mem_of_ne_nil _ hne with ⟨h2, hmem⟩
  rcases level2_mem hmem with ⟨pr, hpr, hp, _⟩
  rcases scanHeadersF_mem s.length true s pr hpr with ⟨a, v, r, hdecomp, hmatch⟩
  rcases level2_site_shape hmatch hp with ⟨rest, rfl⟩
  rw [hdecomp]
  exact subOccL_iff.mpr ⟨a, rest, by simp⟩

theorem extractHeaders_ne_of_level2 {s : List Char} (hne : level2Headings s ≠ []) :
    extractHeaders s ≠ [] := by
  intro h
  apply hne
  unfold level2Headings
  rw [h]
  rfl

theorem mem_le_foldr_max {α : Type} (f : α → Nat) {l : List α} {a : α} (ha : a ∈ l) :
    f a ≤ (l.map f).foldr max 0 := by
  induction l with
  | nil => simp at ha
  | cons x xs ih =>
    rcases List.mem_cons.mp ha with rfl | ha
    · simp only [List.map_cons, List.foldr_cons]
      exact Nat.le_max_left _ _
    · simp only [List.map_cons, List.foldr_cons]
      exact le_trans (ih ha) (Nat.le_max_right _ _)

/-! ## Claims -/

/-- Claim C1, counterexample: on the scenario input
`"这是第一段内容。这是第二段内容！这是第三段内容？"` the segmentation does
not produce 3 paragraphs — the three short sentences never trigger a flush,
so exactly one paragraph is emitted. -/
theorem c1_counterexample :
    (splitParagraphsL
      (cleanTextL "这是第一段内容。这是第二段内容！这是第三段内容？".data)).length ≠ 3 := by
  decide

/-- Claim C1 (amended): on the scenario input with title `"测试文档"`,
cleaning is the identity, segmentation produces exactly ONE paragraph (the
three sentences concatenated, with `！` and `？` rewritten to `。`),
classification labels it Body, and the rendered document is
`"# 测试文档\n\n"` followed by that paragraph and a newline. -/
theorem c1_amended :
    cleanTextL "这是第一段内容。这是第二段内容！这是第三段内容？".data =
      "这是第一段内容。这是第二段内容！这是第三段内容？".data ∧
    splitParagraphsL "这是第一段内容。这是第二段内容！这是第三段内容？".data =
      ["这是第一段内容。这是第二段内容。这是第三段内容。".data] ∧
    analyzeStructure ["这是第一段内容。这是第二段内容。这是第三段内容。".data] =
      ⟨[], [], [⟨0, "这是第一段内容。这是第二段内容。这是第三段内容。".data⟩]⟩ ∧
    generateFormattedText ["这是第一段内容。这是第二段内容。这是第三段内容。".data]
      (analyzeStructure ["这是第一段内容。这是第二段内容。这是第三段内容。".data])
      "测试文档".data =
      "# 测试文档\n\n".data ++
        "这是第一段内容。这是第二段内容。这是第三段内容。".data ++ "\n".data := by
  refine ⟨by decide, by decide, by decide, by decide⟩

/-- Claim C3: classifying any paragraph sequence yields a structure whose
stored original indices, across the titles, lists and paragraphs buckets,
are a permutation of `0..n-1` — full coverage with no index duplicated or
shared between buckets. -/
theorem c3_indices_partition (ps : List (List Char)) :
    (structIndices (analyzeStructure ps)).Perm (List.range ps.length) := by
  rw [List.range_eq_range']
  exact analyzeAux_indices ps 0

/-- Claim C4: the rewrite gateway is fail-open — with no API key it returns
the input unchanged for every response; with a key it returns the input
unchanged on every non-200 status and on every transport exception, never
raising past its boundary (the model is a total function). -/
theorem c4_rewrite_failopen (template text k : List Char) (status : Nat)
    (content : Option (List Char)) (resp : AIResp) :
    callAIOptimizationL none template text resp = text ∧
    (status ≠ 200 → callAIOptimizationL (some k) template text (.ok status content) = text) ∧
    callAIOptimizationL (some k) template text .exn = text := by
  refine ⟨rfl, ?_, rfl⟩
  intro hst
  show (if status = 200 then
      match content with
      | some body => body
      | none => text
    else text) = text
  rw [if_neg hst]

/-- Witness for C4 at a concrete non-success status. -/
theorem c4_witness :
    callAIOptimizationL none "tmpl".data "text".data .exn = "text".data ∧
    ((404 : Nat) ≠ 200 ∧
      callAIOptimizationL (some "k".data) "tmpl".data "text".data (.ok 404 none) =
        "text".data) ∧
    callAIOptimizationL (some "k".data) "tmpl".data "text".data .exn = "text".data :=
  ⟨(c4_rewrite_failopen "tmpl".data "text".data "k".data 404 none .exn).1,
   ⟨by decide, (c4_rewrite_failopen "tmpl".data "text".data "k".data 404 none .exn).2.1
      (by decide)⟩,
   (c4_rewrite_failopen "tmpl".data "text".data "k".data 404 none .exn).2.2⟩

/-- Claim C5, counterexample: normalization is not idempotent.  On
`"a @ b"` the first pass deletes `@` and leaves two adjacent spaces, which
only the second pass collapses. -/
theorem c5_counterexample :
    cleanTextL (cleanTextL "a @ b".data) ≠ cleanTextL "a @ b".data := by decide

/-- Claim C5 (amended): a second application of the normalization reaches a
fixed point — `normalize ∘ normalize` is idempotent, though `normalize`
itself is not (character removal can create fresh whitespace runs). -/
theorem c5_amended (x : List Char) :
    cleanTextL (cleanTextL (cleanTextL x)) = cleanTextL (cleanTextL x) :=
  cleanText_image_fix (fun c hc => cleanText_allowed c hc)

set_option maxRecDepth 4000 in
/-- Claim C2, counterexample: a paragraph can exceed 200 characters even
though no single sentence does.  Two 151-character sentences are
accumulated before the length check fires, yielding one 302-character
paragraph. -/
theorem c2_counterexample :
    splitParagraphsL (List.replicate 150 'a' ++ '。' :: (List.replicate 150 'a' ++ ['。'])) =
      [List.replicate 150 'a' ++ '。' :: (List.replicate 150 'a' ++ ['。'])] ∧
    (List.replicate 150 'a' ++ '。' :: (List.replicate 150 'a' ++ ['。'])).length = 302 ∧
    maxAugLen (List.replicate 150 'a' ++ '。' :: (List.replicate 150 'a' ++ ['。'])) = 151 := by
  refine ⟨by decide, by decide, by decide⟩

/-- Claim C2 (amended): every emitted paragraph is bounded by 200 characters
plus the largest single (terminator-augmented) sentence contribution — the
length check runs only after a whole sentence is appended, so a paragraph
can overshoot 200 by at most one sentence. -/
theorem c2_amended (x p : List Char) (hp : p ∈ splitParagraphsL x) :
    p.length ≤ 200 + maxAugLen x := by
  refine splitParagraphsAux_bound (splitOnPred isSentEnd x) [] (maxAugLen x) ?_ (by simp) p hp
  intro s hs
  exact mem_le_foldr_max augLenOf hs

/-- Witness for C2 at a concrete segmented input. -/
theorem c2_witness :
    "a。".data ∈ splitParagraphsL "a。".data ∧
    ("a。".data : List Char).length ≤ 200 + maxAugLen "a。".data :=
  ⟨by decide, c2_amended "a。".data "a。".data (by decide)⟩

/-- Claim C6: when the (title-injected) rewritten text has at least one
level-2 heading match of the multiline header scan and no literal `目录`
marker, post-processing splices a synthesized TOC — one link entry per
level-2 heading, anchors built by replacing spaces with hyphens —
immediately after the injected top-level heading. -/
theorem c6_toc_synthesis (x t : List Char)
    (h2 : level2Headings (injectTitle x t) ≠ [])
    (hno : subOccL "目录".data (injectTitle x t) = false) :
    postprocessTextL x t =
      "# ".data ++ t ++ "\n\n".data ++
        ("## 目录\n\n".data ++ ((level2Headings (injectTitle x t)).map tocEntry).flatten) ++
        "\n".data ++ injectTitle x t := by
  have hcond : (subOccL "##".data (injectTitle x t) &&
      !subOccL "目录".data (injectTitle x t)) = true := by
    rw [subOcc_hashes_of_level2 h2, hno]
    rfl
  rw [postprocess_splice hcond (extractHeaders_ne_of_level2 h2), tocFold_eq]
  unfold level2Headings
  simp [List.append_assoc]

/-- Witness for C6 on a rewritten text with one level-2 heading. -/
theorem c6_witness :
    postprocessTextL "概述\n## 第一节 内容\n正文".data "文档".data =
      "# ".data ++ "文档".data ++ "\n\n".data ++
        ("## 目录\n\n".data ++
          ((level2Headings (injectTitle "概述\n## 第一节 内容\n正文".data
            "文档".data)).map tocEntry).flatten) ++
        "\n".data ++ injectTitle "概述\n## 第一节 内容\n正文".data "文档".data :=
  c6_toc_synthesis "概述\n## 第一节 内容\n正文".data "文档".data (by decide) (by decide)

/-- Claim C7: the rewrite post-processing is idempotent: a second
application leaves the text unchanged (a spliced TOC plants the `目录`
marker that suppresses the TOC branch, and the output always starts with a
heading marker, suppressing the injection branch). -/
theorem c7_postprocess_idempotent (x t : List Char) :
    postprocessTextL (postprocessTextL x t) t = postprocessTextL x t := by
  by_cases hcond : (subOccL "##".data (injectTitle x t) &&
      !subOccL "目录".data (injectTitle x t)) = true
  · by_cases hhe : extractHeaders (injectTitle x t) = []
    · rw [postprocess_headers_nil hhe]
      have hi : injectTitle (injectTitle x t) t = injectTitle x t :=
        injectTitle_of_startsHash t (injectTitle_startsHash x t)
      rw [postprocess_headers_nil (x := injectTitle x t) (by rw [hi]; exact hhe), hi]
    · have hmark := subOcc_toc_marker hcond hhe
      have hsh : startsHash (postprocessTextL x t) = true := by
        rw [postprocess_splice hcond hhe]
        exact startsHash_hashdata _
      have hi2 : injectTitle (postprocessTextL x t) t = postprocessTextL x t :=
        injectTitle_of_startsHash t hsh
      have hcond2 : (subOccL "##".data (injectTitle (postprocessTextL x t) t) &&
          !subOccL "目录".data (injectTitle (postprocessTextL x t) t)) = false := by
        rw [hi2, hmark]
        simp
      rw [postprocess_cond_false hcond2, hi2]
  · have hb : (subOccL "##".data (injectTitle x t) &&
        !subOccL "目录".data (injectTitle x t)) = false := by
      simpa using hcond
    rw [postprocess_cond_false hb]
    have hi : injectTitle (injectTitle x t) t = injectTitle x t :=
      injectTitle_of_startsHash t (injectTitle_startsHash x t)
    rw [postprocess_cond_false (x := injectTitle x t) (by rw [hi]; exact hb), hi]

/-- Claim C8, counterexample: the rewrite preprocessing does NOT use the
same segmentation rule as the formatter — it lacks the keyword flush, so on
`"首先我们开始。然后继续。"` the formatter's rule yields two blank-line
separated paragraphs while the preprocessor yields one. -/
theorem c8_counterexample :
    preprocessTextL "首先我们开始。然后继续。".data ≠
      intercalateL "\n\n".data
        (splitParagraphsL (removeMarkers (pyJoinWords "首先我们开始。然后继续。".data))) := by
  decide

/-- Claim C8 (amended): the text substituted into the prompt is the
blank-line join of a length-only segmentation, not of the §4.2 rule; it
coincides with the §4.2 formatter rule whenever no discourse-transition
keyword occurs in the re-punctuated sentence stream of the preprocessed
input (a sufficient condition: with a keyword present the two rules may
still coincide by accident, as when a keyword flush aligns with the final
flush). -/
theorem c8_amended (x : List Char)
    (h : ∀ kw ∈ splitKeywords,
      subOccL kw (concatAug (splitOnPred isSentEnd (removeMarkers (pyJoinWords x)))) = false) :
    preprocessTextL x =
      intercalateL "\n\n".data (splitParagraphsL (removeMarkers (pyJoinWords x))) := by
  have hagree := segAgree (splitOnPred isSentEnd (removeMarkers (pyJoinWords x))) []
    (fun kw hkw => by simpa using h kw hkw)
  unfold preprocessTextL splitParagraphsL
  rw [hagree]

/-- Witness for C8 on a keyword-free input. -/
theorem c8_witness :
    (∀ kw ∈ splitKeywords,
      subOccL kw (concatAug (splitOnPred isSentEnd
        (removeMarkers (pyJoinWords "你好。世界。".data)))) = false) ∧
    preprocessTextL "你好。世界。".data =
      intercalateL "\n\n".data
        (splitParagraphsL (removeMarkers (pyJoinWords "你好。世界。".data))) :=
  ⟨by decide, c8_amended "你好。世界。".data (by decide)⟩

/-- Claim C9, counterexample: with no credential the pipeline output does
NOT equal the input and the length delta is not 0 — preprocessing rewrites
`！` to `。` and post-processing prepends `"# 优化文档\n\n"`, so the delta
is 8 on `"你好。世界！"`. -/
theorem c9_counterexample :
    (optimizeText none [] .exn "你好。世界！".data "优化文档".data).optimizedText ≠
      "你好。世界！".data ∧
    (optimizeText none [] .exn "你好。世界！".data "优化文档".data).stats.lengthChange ≠ 0 := by
  refine ⟨by decide, by decide⟩

/-- Claim C9 (amended): with no credential the AI stage is pass-through,
so the pipeline output is exactly the post-processed preprocessed text and
the length delta is its length minus the input's — in general nonzero. -/
theorem c9_amended (template : List Char) (resp : AIResp) (text title : List Char) :
    (optimizeText none template resp text title).optimizedText =
      postprocessTextL (preprocessTextL text) title ∧
    (optimizeText none template resp text title).stats.lengthChange =
      ((postprocessTextL (preprocessTextL text) title).length : Int) -
        (text.length : Int) :=
  ⟨rfl, rfl⟩

/-- Claim C10: every paragraph classified as a list item is recorded with
kind `bullet`: the numeric-dot and ordinal-word list patterns are subsumed
by title pattern 2, and titles are tested first, so `numbered` and
`chinese` are unreachable. -/
theorem c10_list_kind_bullet (ps : List (List Char)) (e : ListEntry)
    (he : e ∈ (analyzeStructure ps).lists) : e.type = "bullet".data := by
  rcases analyzeAux_lists_inv ps 0 e he with ⟨htype, ht⟩
  rw [htype]
  exact getListType_bullet ht

/-- Witness for C10 on a parenthesized-ordinal list paragraph. -/
theorem c10_witness :
    (⟨0, "（一）第一点".data, "bullet".data⟩ : ListEntry) ∈
      (analyzeStructure ["（一）第一点".data]).lists ∧
    (⟨0, "（一）第一点".data, "bullet".data⟩ : ListEntry).type = "bullet".data :=
  ⟨by decide, c10_list_kind_bullet ["（一）第一点".data] _ (by decide)⟩

end YtT
